import Mathlib

/-!
Shallow embedding of the `lru` Go library.

The library has three components:
* `basic_lru` — a non-thread-safe fixed size LRU cache (`basic_lru/lru.go`),
* `expirable_lru` — a thread-safe LRU with per-entry TTL expiration and
  100 expiry buckets (`expirable_lru/lru.go`),
* the thread-safe façade `Cache` (`cache.go`) wrapping `basic_lru` with a
  deferred eviction-callback buffer.

The doubly linked `internal.LRUList` together with the `entries` hash index
is modelled as a single Lean list ordered front (most recently used) to back
(least recently used); the hash index lookup `l.entries[key]` becomes
`List.find?` on that list.  Methods that mutate the receiver become
state-passing functions; every invocation of the eviction callback is made
explicit as a list of evicted key/value pairs returned by the operation, in
invocation order.  `time.Time` / `time.Duration` values are modelled as
integers (nanoseconds); operations that call `time.Now()` take the current
time as an explicit argument.
-/

/-- Replace the element at index `n` of a list by applying `f`;
out-of-range indices leave the list unchanged (models in-place update of
`l.buckets[i]`). -/
def modifyIdx (f : α → α) : Nat → List α → List α
  | _, [] => []
  | 0, a :: as => f a :: as
  | n + 1, a :: as => a :: modifyIdx f n as

namespace BasicLRU

/-- `basic_lru.LRU`: capacity together with the recency list
(front = most recently used, back = oldest).  The `entries` map is implicit:
its contents are exactly the pairs on the list. -/
structure LRU (K V : Type) where
  size : Int
  evictList : List (K × V)
deriving DecidableEq, Repr

variable {K V : Type} [DecidableEq K]

/-- `basic_lru.NewLRU`: rejects non-positive sizes with an error. -/
def NewLRU (size : Int) : Except String (LRU K V) :=
  if size ≤ 0 then
    Except.error s!"invalid cache size ({size}), must be bigger than zero"
  else
    Except.ok { size := size, evictList := [] }

/-- `LRU.Add`: returns (evicted?, new state, eviction-callback invocations). -/
def LRU.Add (l : LRU K V) (key : K) (value : V) :
    Bool × LRU K V × List (K × V) :=
  match l.evictList.find? (fun p => p.1 == key) with
  | some _ =>
    -- existing entry: MoveToFront, then entry.Value = value
    (false,
     { l with evictList := (key, value) :: l.evictList.eraseP (fun p => p.1 == key) },
     [])
  | none =>
    -- add new entry at the front; evict the back node if over capacity
    let el := (key, value) :: l.evictList
    if l.size < (el.length : Int) then
      (true, { l with evictList := el.dropLast }, el.getLast?.toList)
    else
      (false, { l with evictList := el }, [])

/-- `LRU.Get`: on a hit, MoveToFront and return the value. -/
def LRU.Get (l : LRU K V) (key : K) : Option V × LRU K V :=
  match l.evictList.find? (fun p => p.1 == key) with
  | some e =>
    (some e.2, { l with evictList := e :: l.evictList.eraseP (fun p => p.1 == key) })
  | none => (none, l)

/-- `LRU.Contains`: existence check, no mutation. -/
def LRU.Contains (l : LRU K V) (key : K) : Bool × LRU K V :=
  ((l.evictList.find? (fun p => p.1 == key)).isSome, l)

/-- `LRU.Peek`: lookup without recency update. -/
def LRU.Peek (l : LRU K V) (key : K) : Option V × LRU K V :=
  match l.evictList.find? (fun p => p.1 == key) with
  | some e => (some e.2, l)
  | none => (none, l)

/-- `LRU.Remove`: remove by key, invoking the eviction callback if found. -/
def LRU.Remove (l : LRU K V) (key : K) : Bool × LRU K V × List (K × V) :=
  match l.evictList.find? (fun p => p.1 == key) with
  | some e =>
    (true, { l with evictList := l.evictList.eraseP (fun p => p.1 == key) }, [e])
  | none => (false, l, [])

/-- `LRU.RemoveOldest`: remove the back node, invoking the callback. -/
def LRU.RemoveOldest (l : LRU K V) : Option (K × V) × LRU K V × List (K × V) :=
  match l.evictList.getLast? with
  | some e => (some e, { l with evictList := l.evictList.dropLast }, [e])
  | none => (none, l, [])

/-- `LRU.GetOldest`: read the back node. -/
def LRU.GetOldest (l : LRU K V) : Option (K × V) × LRU K V :=
  (l.evictList.getLast?, l)

/-- `LRU.Keys`: keys from oldest to newest. -/
def LRU.Keys (l : LRU K V) : List K :=
  l.evictList.reverse.map Prod.fst

/-- `LRU.Values`: values from oldest to newest. -/
def LRU.Values (l : LRU K V) : List V :=
  l.evictList.reverse.map Prod.snd

/-- `LRU.Len`: number of entries. -/
def LRU.Len (l : LRU K V) : Nat :=
  l.evictList.length

/-- `LRU.Cap`: the capacity. -/
def LRU.Cap (l : LRU K V) : Int :=
  l.size

/-- `LRU.Purge`: delete every entry, invoking the callback once per entry
(the Go code iterates the `entries` map in unspecified order; the model uses
the recency-list order), then `Init` the list. -/
def LRU.Purge (l : LRU K V) : LRU K V × List (K × V) :=
  ({ l with evictList := [] }, l.evictList)

/-- Repeatedly `removeOldest` (at most `n` times, stopping early on an empty
list, as the Go no-ops when `Back()` is nil); returns the remaining list and
the evicted entries in eviction order (oldest first). -/
def removeOldestN : Nat → List (K × V) → List (K × V) × List (K × V)
  | 0, el => (el, [])
  | n + 1, el =>
    match el.getLast? with
    | none => (el, [])
    | some e =>
      let r := removeOldestN n el.dropLast
      (r.1, e :: r.2)

/-- `LRU.Resize`: evict `max (Len - size) 0` times from the back, set the new
size, and return the computed difference. -/
def LRU.Resize (l : LRU K V) (size : Int) : Int × LRU K V × List (K × V) :=
  let diff : Int :=
    if (l.evictList.length : Int) - size < 0 then 0
    else (l.evictList.length : Int) - size
  let r := removeOldestN diff.toNat l.evictList
  (diff, { size := size, evictList := r.1 }, r.2)

/-- Fold a sequence of `Add` calls over the cache (a test driver for the
sequence semantics): returns the final state together with, per call, the
returned `evicted` flag and the eviction-callback invocations of that
call. -/
def LRU.addAll (l : LRU K V) : List (K × V) → LRU K V × List (Bool × List (K × V))
  | [] => (l, [])
  | (k, v) :: rest =>
    let r := l.Add k v
    let r2 := r.2.1.addAll rest
    (r2.1, (r.1, r.2.2) :: r2.2)

/-- States reachable from a successful `NewLRU` by the public operations. -/
inductive Reachable : LRU K V → Prop
  | new (s : Int) (l : LRU K V) : NewLRU s = Except.ok l → Reachable l
  | add (l : LRU K V) (k : K) (v : V) : Reachable l → Reachable (l.Add k v).2.1
  | get (l : LRU K V) (k : K) : Reachable l → Reachable (l.Get k).2
  | remove (l : LRU K V) (k : K) : Reachable l → Reachable (l.Remove k).2.1
  | removeOldest (l : LRU K V) : Reachable l → Reachable l.RemoveOldest.2.1
  | purge (l : LRU K V) : Reachable l → Reachable l.Purge.1
  | resize (l : LRU K V) (s : Int) : Reachable l → Reachable (l.Resize s).2.1

end BasicLRU

namespace ExpirableLRU

/-- `noEvictionTTL`: 100 years in nanoseconds, the sentinel "no expiration"
TTL (`time.Hour * 24 * 365 * 100`). -/
def noEvictionTTL : Int := 3600000000000 * 24 * 365 * 100

/-- `numBuckets`: number of expiry buckets. -/
def numBuckets : Nat := 100

/-- `internal.Entry` as used by the expirable variant: key, value,
expiration time and the index of the expiry bucket holding it. -/
structure Entry (K V : Type) where
  key : K
  value : V
  expiresAt : Int
  bucket : Nat
deriving DecidableEq, Repr

/-- An expiry `bucket`: the keys of its member entries (the Go `entries`
sub-map) and the newest expiry time ever recorded for it. -/
structure Bucket (K : Type) where
  entries : List K
  newestEntry : Int
deriving DecidableEq, Repr

/-- `expirable_lru.LRU`: capacity, recency list (front = most recent), TTL,
the ring of 100 expiry buckets and the sweep cursor `nextBucket`. -/
structure LRU (K V : Type) where
  size : Int
  evictList : List (Entry K V)
  ttl : Int
  buckets : List (Bucket K)
  nextBucket : Nat
deriving DecidableEq, Repr

variable {K V : Type} [DecidableEq K] [DecidableEq V]

/-- `expirable_lru.NewLRU`: negative sizes clamp to 0 (unbounded),
non-positive TTLs become `noEvictionTTL`; construction never fails. -/
def NewLRU (size ttl : Int) : LRU K V :=
  { size := if size < 0 then 0 else size
    evictList := []
    ttl := if ttl ≤ 0 then noEvictionTTL else ttl
    buckets := List.replicate numBuckets { entries := [], newestEntry := 0 }
    nextBucket := 0 }

/-- `LRU.addToBucket` on the bucket array: put `key` into bucket `i` and
bump its `newestEntry` if `expiresAt` is newer. -/
def addKeyToBucket (bs : List (Bucket K)) (i : Nat) (key : K) (expiresAt : Int) :
    List (Bucket K) :=
  modifyIdx
    (fun b =>
      { entries := key :: b.entries
        newestEntry := if b.newestEntry < expiresAt then expiresAt else b.newestEntry })
    i bs

/-- `LRU.removeFromBucket` on the bucket array: delete `key` from bucket `i`. -/
def removeKeyFromBucket (bs : List (Bucket K)) (i : Nat) (key : K) :
    List (Bucket K) :=
  modifyIdx (fun b => { b with entries := b.entries.erase key }) i bs

/-- `LRU.Add`: refresh an existing entry (value, expiry, bucket, recency) or
insert a new one at the front, evicting the back node when the size bound is
exceeded.  Returns (evicted?, new state, callback invocations). -/
def LRU.Add (l : LRU K V) (now : Int) (key : K) (value : V) :
    Bool × LRU K V × List (K × V) :=
  let expiresAt := now + l.ttl
  let bucketIndex := l.nextBucket % numBuckets
  match l.evictList.find? (fun e => e.key == key) with
  | some entry =>
    -- MoveToFront; removeFromBucket; update Value/ExpiresAt; addToBucket
    let e : Entry K V :=
      { key := key, value := value, expiresAt := expiresAt, bucket := bucketIndex }
    (false,
     { l with
        evictList := e :: l.evictList.eraseP (fun x => x.key == key)
        buckets :=
          addKeyToBucket (removeKeyFromBucket l.buckets entry.bucket key)
            bucketIndex key expiresAt },
     [])
  | none =>
    let e : Entry K V :=
      { key := key, value := value, expiresAt := expiresAt, bucket := bucketIndex }
    let el := e :: l.evictList
    let bs := addKeyToBucket l.buckets bucketIndex key expiresAt
    if 0 < l.size ∧ l.size < (el.length : Int) then
      match el.getLast? with
      | some old =>
        (true,
         { l with
            evictList := el.dropLast
            buckets := removeKeyFromBucket bs old.bucket old.key },
         [(old.key, old.value)])
      | none => (true, { l with evictList := el, buckets := bs }, [])
    else
      (false, { l with evictList := el, buckets := bs }, [])

/-- `LRU.Get`: an indexed entry whose `ExpiresAt` is strictly in the past is
reported as a miss without any mutation; otherwise MoveToFront. -/
def LRU.Get (l : LRU K V) (now : Int) (key : K) : Option V × LRU K V :=
  match l.evictList.find? (fun e => e.key == key) with
  | some entry =>
    if entry.expiresAt < now then (none, l)
    else
      (some entry.value,
       { l with evictList := entry :: l.evictList.eraseP (fun x => x.key == key) })
  | none => (none, l)

/-- `LRU.Contains`: pure index lookup, no expiry check, no mutation. -/
def LRU.Contains (l : LRU K V) (key : K) : Bool × LRU K V :=
  ((l.evictList.find? (fun e => e.key == key)).isSome, l)

/-- `LRU.Peek`: like `Get` but with no recency effect; same lazy expiry
check. -/
def LRU.Peek (l : LRU K V) (now : Int) (key : K) : Option V × LRU K V :=
  match l.evictList.find? (fun e => e.key == key) with
  | some entry =>
    if entry.expiresAt < now then (none, l)
    else (some entry.value, l)
  | none => (none, l)

/-- `LRU.Remove`: remove by key, also dropping bucket membership. -/
def LRU.Remove (l : LRU K V) (key : K) : Bool × LRU K V × List (K × V) :=
  match l.evictList.find? (fun e => e.key == key) with
  | some e =>
    (true,
     { l with
        evictList := l.evictList.eraseP (fun x => x.key == key)
        buckets := removeKeyFromBucket l.buckets e.bucket e.key },
     [(e.key, e.value)])
  | none => (false, l, [])

/-- `LRU.RemoveOldest`: remove the back node. -/
def LRU.RemoveOldest (l : LRU K V) :
    Option (K × V) × LRU K V × List (K × V) :=
  match l.evictList.getLast? with
  | some e =>
    (some (e.key, e.value),
     { l with
        evictList := l.evictList.dropLast
        buckets := removeKeyFromBucket l.buckets e.bucket e.key },
     [(e.key, e.value)])
  | none => (none, l, [])

/-- `LRU.GetOldest`: read the back node; no expiry check, no mutation. -/
def LRU.GetOldest (l : LRU K V) : Option (K × V) × LRU K V :=
  ((l.evictList.getLast?).map (fun e => (e.key, e.value)), l)

/-- `LRU.Keys`: oldest to newest, filtering out logically expired entries. -/
def LRU.Keys (l : LRU K V) (now : Int) : List K :=
  (l.evictList.reverse.filter (fun e => !(decide (e.expiresAt < now)))).map Entry.key

/-- `LRU.Values`: oldest to newest, filtering out logically expired entries. -/
def LRU.Values (l : LRU K V) (now : Int) : List V :=
  (l.evictList.reverse.filter (fun e => !(decide (e.expiresAt < now)))).map Entry.value

/-- `LRU.Len`: number of entries on the recency list (no expiry check). -/
def LRU.Len (l : LRU K V) : Nat :=
  l.evictList.length

/-- `LRU.Cap`: the capacity. -/
def LRU.Cap (l : LRU K V) : Int :=
  l.size

/-- `LRU.Purge`: callback once per entry (map order modelled as list order),
empty every bucket's `entries` sub-map (its `newestEntry` timestamp is not
reset by the Go code), and `Init` the list. -/
def LRU.Purge (l : LRU K V) : LRU K V × List (K × V) :=
  ({ l with
      evictList := []
      buckets := l.buckets.map (fun b => { b with entries := [] }) },
   l.evictList.map (fun e => (e.key, e.value)))

/-- Repeated `removeOldest` for `Resize`, stopping early on an empty list. -/
def LRU.removeOldestN : Nat → LRU K V → LRU K V × List (K × V)
  | 0, l => (l, [])
  | n + 1, l =>
    match l.evictList.getLast? with
    | none => (l, [])
    | some e =>
      let r :=
        removeOldestN n
          { l with
             evictList := l.evictList.dropLast
             buckets := removeKeyFromBucket l.buckets e.bucket e.key }
      (r.1, (e.key, e.value) :: r.2)

/-- `LRU.Resize`: non-positive sizes make the cache unbounded without
evicting; otherwise evict down to the new size from the back. -/
def LRU.Resize (l : LRU K V) (size : Int) : Int × LRU K V × List (K × V) :=
  if size ≤ 0 then (0, { l with size := 0 }, [])
  else
    let diff : Int :=
      if (l.evictList.length : Int) - size < 0 then 0
      else (l.evictList.length : Int) - size
    let r := LRU.removeOldestN diff.toNat l
    (diff, { r.1 with size := size }, r.2)

/-- Remove (via `removeEntry`) every listed key still present; models the
loop over a bucket's `entries` in `deleteExpired`. -/
def LRU.removeKeys : List K → LRU K V → LRU K V × List (K × V)
  | [], l => (l, [])
  | k :: ks, l =>
    match l.evictList.find? (fun e => e.key == k) with
    | some e =>
      let r :=
        removeKeys ks
          { l with
             evictList := l.evictList.eraseP (fun x => x.key == k)
             buckets := removeKeyFromBucket l.buckets e.bucket e.key }
      (r.1, (e.key, e.value) :: r.2)
    | none => removeKeys ks l

/-- `LRU.deleteExpired`: sweep the bucket at the cursor, removing every
member entry, then advance the cursor (the timed wait is real time and not
modelled; the removal and cursor arithmetic are). -/
def LRU.deleteExpired (l : LRU K V) : LRU K V × List (K × V) :=
  let ks := (l.buckets.getD l.nextBucket { entries := [], newestEntry := 0 }).entries
  let r := LRU.removeKeys ks l
  ({ r.1 with nextBucket := (r.1.nextBucket + 1) % numBuckets }, r.2)

/-- States reachable from `NewLRU` by the public operations and the sweep. -/
inductive Reachable : LRU K V → Prop
  | new (s ttl : Int) : Reachable (NewLRU s ttl)
  | add (l : LRU K V) (now : Int) (k : K) (v : V) :
      Reachable l → Reachable (l.Add now k v).2.1
  | get (l : LRU K V) (now : Int) (k : K) :
      Reachable l → Reachable (l.Get now k).2
  | remove (l : LRU K V) (k : K) : Reachable l → Reachable (l.Remove k).2.1
  | removeOldest (l : LRU K V) : Reachable l → Reachable l.RemoveOldest.2.1
  | purge (l : LRU K V) : Reachable l → Reachable l.Purge.1
  | resize (l : LRU K V) (s : Int) : Reachable l → Reachable (l.Resize s).2.1
  | deleteExpired (l : LRU K V) : Reachable l → Reachable l.deleteExpired.1

end ExpirableLRU

namespace Facade

/-- `Cache` (`cache.go`, package `main`): the wrapped basic LRU, the transient
eviction buffers, and whether a user eviction callback was supplied
(`onEvict != nil`).  When a callback is supplied, the wrapped LRU's internal
callback (`onEvictCB`) appends evicted pairs to the buffers. -/
structure Cache (K V : Type) where
  lru : BasicLRU.LRU K V
  evictedKeys : List K
  evictedValues : List V
  hasOnEvict : Bool
deriving DecidableEq, Repr

variable {K V : Type} [DecidableEq K] [Inhabited K] [Inhabited V]

/-- `NewWithOnEvict`: builds the wrapped basic LRU; its size validation error
is propagated to the caller. -/
def NewWithOnEvict (size : Int) (hasOnEvict : Bool) :
    Except String (Cache K V) :=
  match BasicLRU.NewLRU (K := K) (V := V) size with
  | Except.error e => Except.error e
  | Except.ok lru =>
    Except.ok
      { lru := lru, evictedKeys := [], evictedValues := [], hasOnEvict := hasOnEvict }

/-- `New`: `NewWithOnEvict` with a nil callback. -/
def New (size : Int) : Except String (Cache K V) :=
  NewWithOnEvict size false

/-- `Cache.onEvictCB` applied to a whole run of internal evictions: each
evicted pair is appended to the buffers, which only happens when a user
callback is registered (otherwise the wrapped LRU has a nil callback). -/
def Cache.onEvictCB (c : Cache K V) (log : List (K × V)) : Cache K V :=
  if c.hasOnEvict then
    { c with
       evictedKeys := c.evictedKeys ++ log.map Prod.fst
       evictedValues := c.evictedValues ++ log.map Prod.snd }
  else c

/-- `Cache.Add`: run the wrapped `Add` under the lock; on an eviction, pull
the single buffered pair out, truncate the buffers, and invoke the user
callback after unlocking.  Returns (evicted?, new state, user-callback
invocations). -/
def Cache.Add (c : Cache K V) (key : K) (value : V) :
    Bool × Cache K V × List (K × V) :=
  let r := c.lru.Add key value
  let c1 := { c.onEvictCB r.2.2 with lru := r.2.1 }
  if r.1 && c.hasOnEvict then
    (r.1,
     { c1 with evictedKeys := [], evictedValues := [] },
     [(c1.evictedKeys.headD default, c1.evictedValues.headD default)])
  else
    (r.1, c1, [])

/-- `Cache.Get`. -/
def Cache.Get (c : Cache K V) (key : K) : Option V × Cache K V :=
  let r := c.lru.Get key
  (r.1, { c with lru := r.2 })

/-- `Cache.Contains`. -/
def Cache.Contains (c : Cache K V) (key : K) : Bool × Cache K V :=
  ((c.lru.Contains key).1, c)

/-- `Cache.Peek`. -/
def Cache.Peek (c : Cache K V) (key : K) : Option V × Cache K V :=
  ((c.lru.Peek key).1, c)

/-- `Cache.ContainsOrAdd`: atomically check for the key and add it only if
absent.  Returns (found?, evicted?, new state, user-callback invocations). -/
def Cache.ContainsOrAdd (c : Cache K V) (key : K) (value : V) :
    Bool × Bool × Cache K V × List (K × V) :=
  if (c.lru.Contains key).1 then
    (true, false, c, [])
  else
    let r := c.lru.Add key value
    let c1 := { c.onEvictCB r.2.2 with lru := r.2.1 }
    if r.1 && c.hasOnEvict then
      (false, r.1,
       { c1 with evictedKeys := [], evictedValues := [] },
       [(c1.evictedKeys.headD default, c1.evictedValues.headD default)])
    else
      (false, r.1, c1, [])

/-- `Cache.PeekOrAdd`: atomically peek and add only if absent.  Returns
(previous value, found?, evicted?, new state, user-callback invocations). -/
def Cache.PeekOrAdd (c : Cache K V) (key : K) (value : V) :
    Option V × Bool × Cache K V × List (K × V) :=
  let p := (c.lru.Peek key).1
  if p.isSome then
    (p, false, c, [])
  else
    let r := c.lru.Add key value
    let c1 := { c.onEvictCB r.2.2 with lru := r.2.1 }
    if r.1 && c.hasOnEvict then
      (p, r.1,
       { c1 with evictedKeys := [], evictedValues := [] },
       [(c1.evictedKeys.headD default, c1.evictedValues.headD default)])
    else
      (p, r.1, c1, [])

/-- `Cache.Remove`: on a successful removal the wrapped callback buffered one
pair, which is drained and delivered after unlocking. -/
def Cache.Remove (c : Cache K V) (key : K) :
    Bool × Cache K V × List (K × V) :=
  let r := c.lru.Remove key
  let c1 := { c.onEvictCB r.2.2 with lru := r.2.1 }
  if r.1 && c.hasOnEvict then
    (r.1,
     { c1 with evictedKeys := [], evictedValues := [] },
     [(c1.evictedKeys.headD default, c1.evictedValues.headD default)])
  else
    (r.1, c1, [])

/-- `Cache.RemoveOldest`. -/
def Cache.RemoveOldest (c : Cache K V) :
    Option (K × V) × Cache K V × List (K × V) :=
  let r := c.lru.RemoveOldest
  let c1 := { c.onEvictCB r.2.2 with lru := r.2.1 }
  if r.1.isSome && c.hasOnEvict then
    (r.1,
     { c1 with evictedKeys := [], evictedValues := [] },
     [(c1.evictedKeys.headD default, c1.evictedValues.headD default)])
  else
    (r.1, c1, [])

/-- `Cache.GetOldest`. -/
def Cache.GetOldest (c : Cache K V) : Option (K × V) × Cache K V :=
  ((c.lru.GetOldest).1, c)

/-- `Cache.Keys`. -/
def Cache.Keys (c : Cache K V) : List K :=
  c.lru.Keys

/-- `Cache.Values`. -/
def Cache.Values (c : Cache K V) : List V :=
  c.lru.Values

/-- `Cache.Len`. -/
def Cache.Len (c : Cache K V) : Nat :=
  c.lru.Len

/-- `Cache.Cap`. -/
def Cache.Cap (c : Cache K V) : Int :=
  c.lru.Cap

/-- `Cache.Purge`: purge the wrapped cache, swap the whole buffers out if
non-empty, and deliver every buffered pair in order after unlocking. -/
def Cache.Purge (c : Cache K V) : Cache K V × List (K × V) :=
  let r := c.lru.Purge
  let c1 := { c.onEvictCB r.2 with lru := r.1 }
  if c.hasOnEvict && !c1.evictedKeys.isEmpty then
    ({ c1 with evictedKeys := [], evictedValues := [] },
     c1.evictedKeys.zip c1.evictedValues)
  else
    (c1, [])

/-- `Cache.Resize`: resize the wrapped cache, swap the buffers out if any
eviction happened, and deliver the buffered pairs after unlocking. -/
def Cache.Resize (c : Cache K V) (size : Int) :
    Int × Cache K V × List (K × V) :=
  let r := c.lru.Resize size
  let c1 := { c.onEvictCB r.2.2 with lru := r.2.1 }
  if decide (0 < r.1) && c.hasOnEvict then
    (r.1,
     { c1 with evictedKeys := [], evictedValues := [] },
     c1.evictedKeys.zip c1.evictedValues)
  else
    (r.1, c1, [])

/-- The façade's transient eviction buffer is empty. -/
def Cache.buffersEmpty (c : Cache K V) : Prop :=
  c.evictedKeys = [] ∧ c.evictedValues = []

end Facade

/-- Sample expirable cache used as a concrete input in closed statements:
capacity 5, TTL 30, with key 1 added at time 0 (so it expires at time 30). -/
def sampleExpired : ExpirableLRU.LRU Nat Nat :=
  ((ExpirableLRU.NewLRU 5 30).Add 0 1 10).2.1

/-! ## Helper lemmas -/

theorem perm_cons_eraseP {α : Type _} {p : α → Bool} {l : List α} {e : α}
    (h : l.find? p = some e) : (e :: l.eraseP p).Perm l := by
  induction l with
  | nil => simp at h
  | cons a t ih =>
    by_cases hpa : p a
    · rw [List.find?_cons_of_pos _ hpa] at h
      rw [List.eraseP_cons_of_pos hpa]
      injection h with h
      subst h
      exact List.Perm.refl _
    · rw [List.find?_cons_of_neg _ hpa] at h
      rw [List.eraseP_cons_of_neg hpa]
      exact (List.Perm.swap a e _).trans ((ih h).cons a)

theorem length_eraseP_of_find? {α : Type _} {p : α → Bool} {l : List α} {e : α}
    (h : l.find? p = some e) :
    (l.eraseP p).length + 1 = l.length := by
  have hmem := List.mem_of_find?_eq_some h
  have hpe := List.find?_some h
  have hlen := List.length_eraseP_of_mem hmem hpe
  have hpos : 0 < l.length := List.length_pos.mpr (List.ne_nil_of_mem hmem)
  omega

/-! ## Claims -/

/-- Claim C2 (corrected): the thread-safe façade constructor does not
normalize a non-positive capacity; it propagates the basic constructor's
`InvalidSizeError`.  Concretely, constructing the façade with capacity 0
fails with the size error. -/
theorem facade_zero_size_fails_cex :
    Facade.NewWithOnEvict (K := Nat) (V := Nat) 0 true =
      Except.error "invalid cache size (0), must be bigger than zero" := rfl

/-- Claim C2 (amended): constructing the basic LRU with capacity ≤ 0 fails
with the `InvalidSizeError`; for every capacity ≤ 0 the expirable
constructor succeeds and silently treats the capacity as unbounded
(clamping it to 0); the thread-safe façade constructor fails with the same
error it propagates from the basic constructor. -/
theorem constructor_size_validation (K V : Type) [DecidableEq K] :
    (∀ size : Int, size ≤ 0 →
      BasicLRU.NewLRU (K := K) (V := V) size =
        Except.error s!"invalid cache size ({size}), must be bigger than zero") ∧
    (∀ size ttl : Int, size ≤ 0 →
      (ExpirableLRU.NewLRU (K := K) (V := V) size ttl).size = 0) ∧
    (∀ (size : Int) (hasCb : Bool), size ≤ 0 →
      Facade.NewWithOnEvict (K := K) (V := V) size hasCb =
        Except.error s!"invalid cache size ({size}), must be bigger than zero") := by
  refine ⟨fun size hs => ?_, fun size ttl hs => ?_, fun size hasCb hs => ?_⟩
  · rw [BasicLRU.NewLRU, if_pos hs]
  · rw [ExpirableLRU.NewLRU]
    by_cases h : size < 0
    · simp [h]
    · simp [h]; omega
  · rw [Facade.NewWithOnEvict, BasicLRU.NewLRU, if_pos hs]

/-- Claim C2 witness: the three constructor behaviors at capacity 0. -/
theorem constructor_size_validation_witness :
    BasicLRU.NewLRU (K := Nat) (V := Nat) 0 =
      Except.error "invalid cache size (0), must be bigger than zero" ∧
    (ExpirableLRU.NewLRU (K := Nat) (V := Nat) 0 7).size = 0 ∧
    Facade.NewWithOnEvict (K := Nat) (V := Nat) 0 false =
      Except.error "invalid cache size (0), must be bigger than zero" :=
  ⟨(constructor_size_validation Nat Nat).1 0 (by decide),
   (constructor_size_validation Nat Nat).2.1 0 7 (by decide),
   (constructor_size_validation Nat Nat).2.2 0 false (by decide)⟩

/-- Claim C3: `Add` on a key already present updates the stored value, moves
the key to the front of the recency order, returns `false`, and leaves
`Len()` unchanged. -/
theorem add_existing_key_updates_moves_front {K V : Type} [DecidableEq K]
    (l : BasicLRU.LRU K V) (key : K) (value : V) (e : K × V)
    (h : l.evictList.find? (fun p => p.1 == key) = some e) :
    (l.Add key value).1 = false ∧
    (l.Add key value).2.1.Len = l.Len ∧
    (l.Add key value).2.1.evictList.head? = some (key, value) ∧
    ((l.Add key value).2.1.Peek key).1 = some value ∧
    (l.Add key value).2.1.evictList =
      (key, value) :: l.evictList.eraseP (fun p => p.1 == key) := by
  rw [BasicLRU.LRU.Add, h]
  refine ⟨rfl, ?_, rfl, ?_, rfl⟩
  · show ((key, value) :: l.evictList.eraseP (fun p => p.1 == key)).length = _
    rw [BasicLRU.LRU.Len, List.length_cons, length_eraseP_of_find? h]
  · rw [BasicLRU.LRU.Peek]
    simp

/-- Claim C3 witness: adding key 1 again to a two-entry cache. -/
theorem add_existing_key_updates_moves_front_witness :
    (BasicLRU.LRU.Add { size := 2, evictList := [(2, 20), (1, 10)] } 1 99).1 = false ∧
    (BasicLRU.LRU.Add { size := 2, evictList := [(2, 20), (1, 10)] } 1 99).2.1.Len =
      BasicLRU.LRU.Len (K := Nat) (V := Nat) { size := 2, evictList := [(2, 20), (1, 10)] } ∧
    (BasicLRU.LRU.Add { size := 2, evictList := [(2, 20), (1, 10)] } 1 99).2.1.evictList.head? =
      some (1, 99) ∧
    ((BasicLRU.LRU.Add { size := 2, evictList := [(2, 20), (1, 10)] } 1 99).2.1.Peek 1).1 =
      some 99 ∧
    (BasicLRU.LRU.Add { size := 2, evictList := [(2, 20), (1, 10)] } 1 99).2.1.evictList =
      (1, 99) :: List.eraseP (fun p => p.1 == 1) [(2, 20), (1, 10)] :=
  add_existing_key_updates_moves_front
    { size := 2, evictList := [(2, 20), (1, 10)] } 1 99 (1, 10) (by decide)

/-- Claim C4 (corrected): `Get` on a hit does not always change the eviction
order — when the hit key is already at the front, `MoveToFront` is a no-op
and the state (hence the order) is unchanged.  Concrete counterexample:
a one-entry cache. -/
theorem get_hit_front_key_order_unchanged_cex :
    BasicLRU.LRU.Get { size := 1, evictList := [(1, 10)] } 1 =
      (some 10, ({ size := 1, evictList := [(1, 10)] } : BasicLRU.LRU Nat Nat)) := by
  decide

/-- Claim C4 (amended): `Peek` and `Contains` leave the recency order and
all entries unchanged; `Get` on a hit moves the hit key to the front of the
recency order, permuting but never adding or dropping entries (the order is
unchanged exactly when the key was already frontmost). -/
theorem peek_contains_frame_get_moves_front {K V : Type} [DecidableEq K]
    (l : BasicLRU.LRU K V) (key : K) :
    (l.Peek key).2 = l ∧
    (l.Contains key).2 = l ∧
    (∀ e : K × V, l.evictList.find? (fun p => p.1 == key) = some e →
      (l.Get key).1 = some e.2 ∧
      (l.Get key).2.evictList =
        e :: l.evictList.eraseP (fun p => p.1 == key) ∧
      (l.Get key).2.evictList.head? = some e ∧
      (l.Get key).2.evictList.Perm l.evictList) := by
  refine ⟨?_, rfl, fun e h => ?_⟩
  · rw [BasicLRU.LRU.Peek]
    cases l.evictList.find? (fun p => p.1 == key) <;> rfl
  · rw [BasicLRU.LRU.Get, h]
    exact ⟨rfl, rfl, rfl, perm_cons_eraseP h⟩

/-- Claim C4 witness: a hit on the back key of a two-entry cache. -/
theorem peek_contains_frame_get_moves_front_witness :
    (BasicLRU.LRU.Peek { size := 2, evictList := [(2, 20), (1, 10)] } 1).2 =
      ({ size := 2, evictList := [(2, 20), (1, 10)] } : BasicLRU.LRU Nat Nat) ∧
    (BasicLRU.LRU.Contains { size := 2, evictList := [(2, 20), (1, 10)] } 1).2 =
      ({ size := 2, evictList := [(2, 20), (1, 10)] } : BasicLRU.LRU Nat Nat) ∧
    (∀ e : Nat × Nat,
      List.find? (fun p => p.1 == 1) [(2, 20), (1, 10)] = some e →
      (BasicLRU.LRU.Get { size := 2, evictList := [(2, 20), (1, 10)] } 1).1 = some e.2 ∧
      (BasicLRU.LRU.Get { size := 2, evictList := [(2, 20), (1, 10)] } 1).2.evictList =
        e :: List.eraseP (fun p => p.1 == 1) [(2, 20), (1, 10)] ∧
      (BasicLRU.LRU.Get { size := 2, evictList := [(2, 20), (1, 10)] } 1).2.evictList.head? =
        some e ∧
      (BasicLRU.LRU.Get
        { size := 2, evictList := [(2, 20), (1, 10)] } 1).2.evictList.Perm
          [(2, 20), (1, 10)]) :=
  peek_contains_frame_get_moves_front { size := 2, evictList := [(2, 20), (1, 10)] } 1

/-- Claim C5: in the expirable variant, `Get` (and `Peek`) on a key whose
node is indexed but whose `expiresAt` lies strictly in the past returns
not-found while leaving the whole state — recency list, index and buckets —
untouched. -/
theorem expired_lookup_is_miss_without_removal {K V : Type}
    [DecidableEq K] [DecidableEq V]
    (l : ExpirableLRU.LRU K V) (now : Int) (key : K) (e : ExpirableLRU.Entry K V)
    (hfind : l.evictList.find? (fun x => x.key == key) = some e)
    (hexp : e.expiresAt < now) :
    l.Get now key = (none, l) ∧ l.Peek now key = (none, l) := by
  rw [ExpirableLRU.LRU.Get, ExpirableLRU.LRU.Peek, hfind]
  simp [hexp]

/-- Claim C5 witness: key 1 expired at time 30, looked up at time 45. -/
theorem expired_lookup_is_miss_without_removal_witness :
    sampleExpired.Get 45 1 = (none, sampleExpired) ∧
    sampleExpired.Peek 45 1 = (none, sampleExpired) :=
  expired_lookup_is_miss_without_removal sampleExpired 45 1
    { key := 1, value := 10, expiresAt := 30, bucket := 0 } (by decide) (by decide)

/-- Claim C10: in the expirable variant, `Contains`, `GetOldest` and `Len`
apply no expiration check: a physically present but expired entry is
reported by `Contains` as present, is returned by `GetOldest` with
`ok = true` when it is the back node, and is counted by `Len`, even while
`Get` of the same key reports not-found. -/
theorem contains_getoldest_len_ignore_expiry {K V : Type}
    [DecidableEq K] [DecidableEq V]
    (l : ExpirableLRU.LRU K V) (now : Int) (e : ExpirableLRU.Entry K V)
    (hback : l.evictList.getLast? = some e)
    (hfind : l.evictList.find? (fun x => x.key == e.key) = some e)
    (hexp : e.expiresAt < now) :
    (l.Contains e.key).1 = true ∧
    l.GetOldest = (some (e.key, e.value), l) ∧
    l.Len = l.evictList.length ∧ 0 < l.Len ∧
    (l.Get now e.key).1 = none := by
  refine ⟨?_, ?_, rfl, ?_, ?_⟩
  · rw [ExpirableLRU.LRU.Contains]
    simp [hfind]
  · rw [ExpirableLRU.LRU.GetOldest, hback]
    rfl
  · have := List.mem_of_find?_eq_some hfind
    have := List.length_pos.mpr (List.ne_nil_of_mem this)
    exact this
  · rw [ExpirableLRU.LRU.Get, hfind]
    simp [hexp]

/-- Claim C10 witness: the single expired entry of `sampleExpired` at
time 45. -/
theorem contains_getoldest_len_ignore_expiry_witness :
    (sampleExpired.Contains 1).1 = true ∧
    sampleExpired.GetOldest = (some (1, 10), sampleExpired) ∧
    sampleExpired.Len = sampleExpired.evictList.length ∧ 0 < sampleExpired.Len ∧
    (sampleExpired.Get 45 1).1 = none :=
  contains_getoldest_len_ignore_expiry sampleExpired 45
    { key := 1, value := 10, expiresAt := 30, bucket := 0 }
    (by decide) (by decide) (by decide)

theorem removeOldestN_spec {K V : Type} (n : Nat) (el : List (K × V))
    (h : n ≤ el.length) :
    BasicLRU.removeOldestN n el =
      (el.take (el.length - n), el.reverse.take n) := by
  induction n generalizing el with
  | zero => simp [BasicLRU.removeOldestN]
  | succ n ih =>
    have hne : el ≠ [] := List.length_pos.mp (by omega)
    have hdl : el.dropLast.length = el.length - 1 := List.length_dropLast el
    have hlen : n ≤ el.dropLast.length := by omega
    have hconcat := List.dropLast_concat_getLast hne
    rw [BasicLRU.removeOldestN, List.getLast?_eq_getLast el hne]
    show ((BasicLRU.removeOldestN n el.dropLast).1,
          el.getLast hne :: (BasicLRU.removeOldestN n el.dropLast).2) = _
    rw [ih el.dropLast hlen]
    show (el.dropLast.take (el.dropLast.length - n),
          el.getLast hne :: el.dropLast.reverse.take n) = _
    rw [Prod.mk.injEq]
    constructor
    · rw [hdl, List.dropLast_eq_take, List.take_take]
      have hmin : (el.length - 1 - n) ⊓ (el.length - 1) = el.length - (n + 1) := by
        omega
      rw [hmin]
    · conv_rhs => rw [← hconcat]
      rw [List.reverse_concat, List.take_succ_cons]

theorem removeOldestN_length {K V : Type} (n : Nat) (el : List (K × V)) :
    (BasicLRU.removeOldestN n el).1.length = el.length - n := by
  induction n generalizing el with
  | zero => simp [BasicLRU.removeOldestN]
  | succ n ih =>
    rw [BasicLRU.removeOldestN]
    cases hl : el.getLast? with
    | none =>
      rw [List.getLast?_eq_none_iff] at hl
      subst hl
      simp
    | some e =>
      have : el ≠ [] := by
        intro he
        subst he
        simp at hl
      have := ih el.dropLast
      simp only [this, List.length_dropLast]
      omega

/-- Claim C6 (corrected): for a negative target size the code returns
`Len() − N` but can only evict the `Len()` entries that exist, so
"evicts exactly `Len()−N` entries" fails.  Concretely, `Resize(-1)` on a
two-entry cache returns 3 while evicting (invoking the callback for) only
2 entries. -/
theorem resize_negative_overcount_cex :
    (BasicLRU.LRU.Resize
        ({ size := 2, evictList := [(2, 20), (1, 10)] } : BasicLRU.LRU Nat Nat)
        (-1)).1 = 3 ∧
    (BasicLRU.LRU.Resize
        ({ size := 2, evictList := [(2, 20), (1, 10)] } : BasicLRU.LRU Nat Nat)
        (-1)).2.2.length = 2 := by
  decide

/-- Claim C6 (amended): `Resize(N)` with `N ≥ Len()` evicts nothing and
returns 0; `Resize(N)` with `0 ≤ N < Len()` evicts exactly `Len()−N`
entries, oldest first from the back, keeps the `N` most recent entries, and
returns `Len()−N`.  (For `N < 0` the return value still is `Len()−N` but
only the `Len()` existing entries can be evicted.) -/
theorem resize_grow_keeps_shrink_evicts_oldest {K V : Type}
    (l : BasicLRU.LRU K V) (N : Int) :
    ((l.Len : Int) ≤ N →
      (l.Resize N).1 = 0 ∧
      (l.Resize N).2.1.evictList = l.evictList ∧
      (l.Resize N).2.2 = []) ∧
    (0 ≤ N → N < (l.Len : Int) →
      (l.Resize N).1 = (l.Len : Int) - N ∧
      (l.Resize N).2.2 = l.evictList.reverse.take (l.Len - N.toNat) ∧
      (l.Resize N).2.2.length = l.Len - N.toNat ∧
      (l.Resize N).2.1.evictList = l.evictList.take N.toNat ∧
      (l.Resize N).2.1.Len = N.toNat) := by
  constructor
  · intro hge
    have hdiff :
        (if (l.evictList.length : Int) - N < 0 then 0
         else (l.evictList.length : Int) - N) = 0 := by
      rw [BasicLRU.LRU.Len] at hge
      split <;> omega
    rw [BasicLRU.LRU.Resize]
    simp only [hdiff, Int.toNat_zero, BasicLRU.removeOldestN]
    simp
  · intro hN hlt
    rw [BasicLRU.LRU.Len] at hlt
    have hdiff :
        (if (l.evictList.length : Int) - N < 0 then 0
         else (l.evictList.length : Int) - N) = (l.evictList.length : Int) - N := by
      split <;> omega
    have htn : ((l.evictList.length : Int) - N).toNat = l.evictList.length - N.toNat := by
      omega
    have hle : l.evictList.length - N.toNat ≤ l.evictList.length := by omega
    rw [BasicLRU.LRU.Resize]
    simp only [hdiff, htn, removeOldestN_spec _ _ hle]
    refine ⟨rfl, rfl, ?_, ?_, ?_⟩
    · simp only [List.length_take, List.length_reverse]
      rw [BasicLRU.LRU.Len]
      omega
    · show l.evictList.take (l.evictList.length - (l.evictList.length - N.toNat)) = _
      congr 1
      omega
    · show (l.evictList.take (l.evictList.length - (l.evictList.length - N.toNat))).length = _
      simp only [List.length_take]
      omega

/-- Claim C6 witness: growing a two-entry cache to 5 keeps everything;
shrinking it to 1 evicts the single oldest entry and returns 1. -/
theorem resize_grow_keeps_shrink_evicts_oldest_witness :
    ((BasicLRU.LRU.Resize
        ({ size := 2, evictList := [(2, 20), (1, 10)] } : BasicLRU.LRU Nat Nat) 5).1 = 0 ∧
     (BasicLRU.LRU.Resize
        ({ size := 2, evictList := [(2, 20), (1, 10)] } : BasicLRU.LRU Nat Nat)
        5).2.1.evictList = [(2, 20), (1, 10)] ∧
     (BasicLRU.LRU.Resize
        ({ size := 2, evictList := [(2, 20), (1, 10)] } : BasicLRU.LRU Nat Nat) 5).2.2 = []) ∧
    ((BasicLRU.LRU.Resize
        ({ size := 2, evictList := [(2, 20), (1, 10)] } : BasicLRU.LRU Nat Nat) 1).1 = 1 ∧
     (BasicLRU.LRU.Resize
        ({ size := 2, evictList := [(2, 20), (1, 10)] } : BasicLRU.LRU Nat Nat) 1).2.2 =
       [(1, 10)] ∧
     (BasicLRU.LRU.Resize
        ({ size := 2, evictList := [(2, 20), (1, 10)] } : BasicLRU.LRU Nat Nat)
        1).2.2.length = 1 ∧
     (BasicLRU.LRU.Resize
        ({ size := 2, evictList := [(2, 20), (1, 10)] } : BasicLRU.LRU Nat Nat)
        1).2.1.evictList = [(2, 20)] ∧
     (BasicLRU.LRU.Resize
        ({ size := 2, evictList := [(2, 20), (1, 10)] } : BasicLRU.LRU Nat Nat)
        1).2.1.Len = 1) :=
  ⟨(resize_grow_keeps_shrink_evicts_oldest
      { size := 2, evictList := [(2, 20), (1, 10)] } 5).1 (by decide),
   (resize_grow_keeps_shrink_evicts_oldest
      { size := 2, evictList := [(2, 20), (1, 10)] } 1).2 (by decide) (by decide)⟩

/-- Claim C7: in both variants, `Purge()` leaves the cache empty (`Len() = 0`
and `Keys()` empty), invokes the eviction callback exactly once per entry
that existed at purge time (the callback log is a permutation of those
entries and has length `Len()`), and an immediately repeated `Purge()` is a
no-op that invokes no callbacks. -/
theorem purge_empties_and_second_purge_noop (K V : Type)
    [DecidableEq K] [DecidableEq V] :
    (∀ l : BasicLRU.LRU K V,
      l.Purge.1.Len = 0 ∧
      l.Purge.1.Keys = [] ∧
      l.Purge.2.Perm l.evictList ∧
      l.Purge.2.length = l.Len ∧
      l.Purge.1.Purge = (l.Purge.1, [])) ∧
    (∀ l : ExpirableLRU.LRU K V,
      l.Purge.1.Len = 0 ∧
      (∀ now, l.Purge.1.Keys now = []) ∧
      l.Purge.2.Perm (l.evictList.map (fun e => (e.key, e.value))) ∧
      l.Purge.2.length = l.Len ∧
      l.Purge.1.Purge = (l.Purge.1, [])) := by
  constructor
  · intro l
    exact ⟨rfl, rfl, List.Perm.refl _, rfl, rfl⟩
  · intro l
    have hsecond : ∀ m : ExpirableLRU.LRU K V, m.evictList = [] →
        m.buckets.map (fun b => { b with entries := ([] : List K) }) = m.buckets →
        m.Purge = (m, []) := by
      intro m hm hb
      obtain ⟨s, el, t, bs, nb⟩ := m
      dsimp only at hm hb
      subst hm
      rw [ExpirableLRU.LRU.Purge]
      dsimp only
      rw [hb]
      rfl
    refine ⟨rfl, fun now => rfl, List.Perm.refl _, ?_, ?_⟩
    · show (l.evictList.map (fun e => (e.key, e.value))).length = _
      rw [List.length_map]
      rfl
    · refine hsecond l.Purge.1 rfl ?_
      show (l.buckets.map (fun b => { b with entries := ([] : List K) })).map
            (fun b => { b with entries := ([] : List K) }) =
          l.buckets.map (fun b => { b with entries := ([] : List K) })
      rw [List.map_map]
      exact rfl

theorem basic_add_not_evicted_log {K V : Type} [DecidableEq K]
    (l : BasicLRU.LRU K V) (k : K) (v : V) (h : (l.Add k v).1 = false) :
    (l.Add k v).2.2 = [] := by
  rw [BasicLRU.LRU.Add] at h ⊢
  cases hf : l.evictList.find? (fun p => p.1 == k) with
  | some e => simp only [hf]
  | none =>
    simp only [hf] at h ⊢
    by_cases hcond : l.size < (((k, v) :: l.evictList).length : Int)
    · simp only [if_pos hcond] at h
      simp at h
    · simp only [if_neg hcond]

theorem basic_remove_not_found_log {K V : Type} [DecidableEq K]
    (l : BasicLRU.LRU K V) (k : K) (h : (l.Remove k).1 = false) :
    (l.Remove k).2.2 = [] := by
  rw [BasicLRU.LRU.Remove] at h ⊢
  cases hf : l.evictList.find? (fun p => p.1 == k) with
  | some e =>
    simp only [hf] at h
    simp at h
  | none => simp only [hf]

theorem basic_removeOldest_none_log {K V : Type}
    (l : BasicLRU.LRU K V) (h : l.RemoveOldest.1 = none) :
    l.RemoveOldest.2.2 = [] := by
  rw [BasicLRU.LRU.RemoveOldest] at h ⊢
  cases hf : l.evictList.getLast? with
  | some e =>
    simp only [hf] at h
    simp at h
  | none => simp only [hf]

theorem basic_resize_nonpos_log {K V : Type}
    (l : BasicLRU.LRU K V) (s : Int) (h : (l.Resize s).1 ≤ 0) :
    (l.Resize s).2.2 = [] := by
  rw [BasicLRU.LRU.Resize] at h ⊢
  by_cases hc : (l.evictList.length : Int) - s < 0
  · simp only [if_pos hc, Int.toNat_zero, BasicLRU.removeOldestN]
  · simp only [if_neg hc] at h ⊢
    have hz : ((l.evictList.length : Int) - s).toNat = 0 := by omega
    rw [hz]
    rfl

/-- Claim C9: the façade's transient eviction buffer is empty before and
after every public call — every public operation that can trigger evictions
(`Add`, `ContainsOrAdd`, `PeekOrAdd`, `Remove`, `RemoveOldest`, `Purge`,
`Resize`) drains it completely before returning, and no operation leaves
buffered pairs behind. -/
theorem facade_buffer_empty_after_every_op {K V : Type}
    [DecidableEq K] [Inhabited K] [Inhabited V]
    (c : Facade.Cache K V) (key : K) (value : V) (size : Int)
    (h : c.buffersEmpty) :
    (c.Add key value).2.1.buffersEmpty ∧
    (c.Get key).2.buffersEmpty ∧
    (c.ContainsOrAdd key value).2.2.1.buffersEmpty ∧
    (c.PeekOrAdd key value).2.2.1.buffersEmpty ∧
    (c.Remove key).2.1.buffersEmpty ∧
    c.RemoveOldest.2.1.buffersEmpty ∧
    c.Purge.1.buffersEmpty ∧
    (c.Resize size).2.1.buffersEmpty := by
  obtain ⟨hk, hv⟩ := h
  refine ⟨?_, ⟨hk, hv⟩, ?_, ?_, ?_, ?_, ?_, ?_⟩
  · -- Add
    rw [Facade.Cache.Add]
    cases hev : c.hasOnEvict with
    | false => simp [Facade.Cache.onEvictCB, Facade.Cache.buffersEmpty, hev, hk, hv]
    | true =>
      cases hflag : (c.lru.Add key value).1 with
      | true => simp [hev, hflag, Facade.Cache.buffersEmpty]
      | false =>
        have hlog := basic_add_not_evicted_log c.lru key value hflag
        simp [Facade.Cache.onEvictCB, Facade.Cache.buffersEmpty, hev, hflag, hk, hv,
          hlog]
  · -- ContainsOrAdd
    rw [Facade.Cache.ContainsOrAdd]
    by_cases hcont : (c.lru.Contains key).1
    · simp [hcont, Facade.Cache.buffersEmpty, hk, hv]
    · cases hev : c.hasOnEvict with
      | false =>
        simp [Facade.Cache.onEvictCB, Facade.Cache.buffersEmpty, hcont, hev, hk, hv]
      | true =>
        cases hflag : (c.lru.Add key value).1 with
        | true => simp [hcont, hev, hflag, Facade.Cache.buffersEmpty]
        | false =>
          have hlog := basic_add_not_evicted_log c.lru key value hflag
          simp [Facade.Cache.onEvictCB, Facade.Cache.buffersEmpty, hcont, hev, hflag,
            hk, hv, hlog]
  · -- PeekOrAdd
    rw [Facade.Cache.PeekOrAdd]
    by_cases hpeek : ((c.lru.Peek key).1).isSome
    · simp [hpeek, Facade.Cache.buffersEmpty, hk, hv]
    · cases hev : c.hasOnEvict with
      | false =>
        simp [Facade.Cache.onEvictCB, Facade.Cache.buffersEmpty, hpeek, hev, hk, hv]
      | true =>
        cases hflag : (c.lru.Add key value).1 with
        | true => simp [hpeek, hev, hflag, Facade.Cache.buffersEmpty]
        | false =>
          have hlog := basic_add_not_evicted_log c.lru key value hflag
          simp [Facade.Cache.onEvictCB, Facade.Cache.buffersEmpty, hpeek, hev, hflag,
            hk, hv, hlog]
  · -- Remove
    rw [Facade.Cache.Remove]
    cases hev : c.hasOnEvict with
    | false => simp [Facade.Cache.onEvictCB, Facade.Cache.buffersEmpty, hev, hk, hv]
    | true =>
      cases hflag : (c.lru.Remove key).1 with
      | true => simp [hev, hflag, Facade.Cache.buffersEmpty]
      | false =>
        have hlog := basic_remove_not_found_log c.lru key hflag
        simp [Facade.Cache.onEvictCB, Facade.Cache.buffersEmpty, hev, hflag, hk, hv,
          hlog]
  · -- RemoveOldest
    rw [Facade.Cache.RemoveOldest]
    cases hev : c.hasOnEvict with
    | false => simp [Facade.Cache.onEvictCB, Facade.Cache.buffersEmpty, hev, hk, hv]
    | true =>
      cases hflag : c.lru.RemoveOldest.1 with
      | some e => simp [hev, hflag, Facade.Cache.buffersEmpty]
      | none =>
        have hlog := basic_removeOldest_none_log c.lru hflag
        simp [Facade.Cache.onEvictCB, Facade.Cache.buffersEmpty, hev, hflag, hk, hv,
          hlog]
  · -- Purge
    rw [Facade.Cache.Purge]
    cases hev : c.hasOnEvict with
    | false => simp [Facade.Cache.onEvictCB, Facade.Cache.buffersEmpty, hev, hk, hv]
    | true =>
      by_cases hemp :
          ({ c.onEvictCB c.lru.Purge.2 with lru := c.lru.Purge.1 } :
            Facade.Cache K V).evictedKeys.isEmpty
      · have hkeys :
            ({ c.onEvictCB c.lru.Purge.2 with lru := c.lru.Purge.1 } :
              Facade.Cache K V).evictedKeys = [] := by
          rwa [List.isEmpty_iff] at hemp
        have hlog2 : c.lru.Purge.2 = [] := by
          have := hkeys
          simp [Facade.Cache.onEvictCB, hev, hk] at this
          exact this
        simp [Facade.Cache.onEvictCB, Facade.Cache.buffersEmpty, hev, hemp, hk, hv,
          hlog2]
      · simp [hev, hemp, Facade.Cache.buffersEmpty]
  · -- Resize
    rw [Facade.Cache.Resize]
    cases hev : c.hasOnEvict with
    | false => simp [Facade.Cache.onEvictCB, Facade.Cache.buffersEmpty, hev, hk, hv]
    | true =>
      by_cases hpos : 0 < (c.lru.Resize size).1
      · simp [hev, hpos, Facade.Cache.buffersEmpty]
      · have hlog := basic_resize_nonpos_log c.lru size (by omega)
        simp [Facade.Cache.onEvictCB, Facade.Cache.buffersEmpty, hev, hpos, hk, hv,
          hlog]

/-- Claim C9 witness: a fresh façade with a registered callback over a full
one-entry LRU; adding a new key evicts and the buffer stays empty. -/
theorem facade_buffer_empty_after_every_op_witness :
    (Facade.Cache.Add
      { lru := { size := 1, evictList := [(1, 10)] }, evictedKeys := [],
        evictedValues := [], hasOnEvict := true } 2 (20 : Nat)).2.1.buffersEmpty ∧
    (Facade.Cache.Get
      ({ lru := { size := 1, evictList := [(1, 10)] }, evictedKeys := [],
         evictedValues := [], hasOnEvict := true } : Facade.Cache Nat Nat)
      2).2.buffersEmpty ∧
    (Facade.Cache.ContainsOrAdd
      { lru := { size := 1, evictList := [(1, 10)] }, evictedKeys := [],
        evictedValues := [], hasOnEvict := true } 2 20).2.2.1.buffersEmpty ∧
    (Facade.Cache.PeekOrAdd
      { lru := { size := 1, evictList := [(1, 10)] }, evictedKeys := [],
        evictedValues := [], hasOnEvict := true } 2 20).2.2.1.buffersEmpty ∧
    (Facade.Cache.Remove
      { lru := { size := 1, evictList := [(1, 10)] }, evictedKeys := [],
        evictedValues := [], hasOnEvict := true } 2).2.1.buffersEmpty ∧
    (Facade.Cache.RemoveOldest
      ({ lru := { size := 1, evictList := [(1, 10)] }, evictedKeys := [],
         evictedValues := [], hasOnEvict := true } :
        Facade.Cache Nat Nat)).2.1.buffersEmpty ∧
    (Facade.Cache.Purge
      ({ lru := { size := 1, evictList := [(1, 10)] }, evictedKeys := [],
         evictedValues := [], hasOnEvict := true } :
        Facade.Cache Nat Nat)).1.buffersEmpty ∧
    (Facade.Cache.Resize
      ({ lru := { size := 1, evictList := [(1, 10)] }, evictedKeys := [],
         evictedValues := [], hasOnEvict := true } : Facade.Cache Nat Nat)
      0).2.1.buffersEmpty :=
  facade_buffer_empty_after_every_op
    { lru := { size := 1, evictList := [(1, 10)] }, evictedKeys := [],
      evictedValues := [], hasOnEvict := true } 2 20 0 ⟨rfl, rfl⟩

theorem basic_new_ok_evictList {K V : Type} [DecidableEq K] {s : Int}
    {l : BasicLRU.LRU K V} (h : BasicLRU.NewLRU s = Except.ok l) :
    l.evictList = [] ∧ 0 < l.size := by
  rw [BasicLRU.NewLRU] at h
  split at h
  · exact absurd h (by simp)
  · injection h with h
    subst h
    refine ⟨rfl, ?_⟩
    show (0 : Int) < s
    omega

theorem inv_basic_add {K V : Type} [DecidableEq K]
    (l : BasicLRU.LRU K V) (k : K) (v : V)
    (h : 0 < l.size → (l.Len : Int) ≤ l.size) :
    0 < (l.Add k v).2.1.size → ((l.Add k v).2.1.Len : Int) ≤ (l.Add k v).2.1.size := by
  rw [BasicLRU.LRU.Add]
  cases hf : l.evictList.find? (fun p => p.1 == k) with
  | some e =>
    simp only [hf]
    intro hs
    show ((((k, v) :: l.evictList.eraseP (fun p => p.1 == k)).length : Nat) : Int) ≤ l.size
    have hlen := length_eraseP_of_find? hf
    have hinv := h hs
    rw [BasicLRU.LRU.Len] at hinv
    simp only [List.length_cons]
    omega
  | none =>
    simp only [hf]
    by_cases hcond : l.size < (((k, v) :: l.evictList).length : Int)
    · simp only [if_pos hcond]
      intro hs
      show ((((k, v) :: l.evictList).dropLast.length : Nat) : Int) ≤ l.size
      have hinv := h hs
      rw [BasicLRU.LRU.Len] at hinv
      simp only [List.length_dropLast, List.length_cons]
      omega
    · simp only [if_neg hcond]
      intro hs
      show ((((k, v) :: l.evictList).length : Nat) : Int) ≤ l.size
      simp only [List.length_cons] at hcond ⊢
      omega

theorem inv_basic_get {K V : Type} [DecidableEq K]
    (l : BasicLRU.LRU K V) (k : K)
    (h : 0 < l.size → (l.Len : Int) ≤ l.size) :
    0 < (l.Get k).2.size → ((l.Get k).2.Len : Int) ≤ (l.Get k).2.size := by
  rw [BasicLRU.LRU.Get]
  cases hf : l.evictList.find? (fun p => p.1 == k) with
  | some e =>
    simp only [hf]
    intro hs
    show (((e :: l.evictList.eraseP (fun p => p.1 == k)).length : Nat) : Int) ≤ l.size
    have hlen := length_eraseP_of_find? hf
    have hinv := h hs
    rw [BasicLRU.LRU.Len] at hinv
    simp only [List.length_cons]
    omega
  | none =>
    simp only [hf]
    exact h

theorem inv_basic_remove {K V : Type} [DecidableEq K]
    (l : BasicLRU.LRU K V) (k : K)
    (h : 0 < l.size → (l.Len : Int) ≤ l.size) :
    0 < (l.Remove k).2.1.size → ((l.Remove k).2.1.Len : Int) ≤ (l.Remove k).2.1.size := by
  rw [BasicLRU.LRU.Remove]
  cases hf : l.evictList.find? (fun p => p.1 == k) with
  | some e =>
    simp only [hf]
    intro hs
    show (((l.evictList.eraseP (fun p => p.1 == k)).length : Nat) : Int) ≤ l.size
    have hle := List.length_eraseP_le l.evictList (p := fun p => p.1 == k)
    have hinv := h hs
    rw [BasicLRU.LRU.Len] at hinv
    omega
  | none =>
    simp only [hf]
    exact h

theorem inv_basic_removeOldest {K V : Type} [DecidableEq K]
    (l : BasicLRU.LRU K V)
    (h : 0 < l.size → (l.Len : Int) ≤ l.size) :
    0 < l.RemoveOldest.2.1.size → (l.RemoveOldest.2.1.Len : Int) ≤ l.RemoveOldest.2.1.size := by
  rw [BasicLRU.LRU.RemoveOldest]
  cases hf : l.evictList.getLast? with
  | some e =>
    simp only [hf]
    intro hs
    show ((l.evictList.dropLast.length : Nat) : Int) ≤ l.size
    have hinv := h hs
    rw [BasicLRU.LRU.Len] at hinv
    simp only [List.length_dropLast]
    omega
  | none =>
    simp only [hf]
    exact h

theorem inv_basic_purge {K V : Type}
    (l : BasicLRU.LRU K V) :
    0 < l.Purge.1.size → (l.Purge.1.Len : Int) ≤ l.Purge.1.size := by
  intro hs
  have hs2 : 0 < l.size := hs
  show (((0 : Nat)) : Int) ≤ l.size
  omega

theorem inv_basic_resize {K V : Type}
    (l : BasicLRU.LRU K V) (s : Int) :
    0 < (l.Resize s).2.1.size → ((l.Resize s).2.1.Len : Int) ≤ (l.Resize s).2.1.size := by
  rw [BasicLRU.LRU.Resize]
  intro hs
  by_cases hc : (l.evictList.length : Int) - s < 0
  · simp only [if_pos hc] at hs ⊢
    show (((BasicLRU.removeOldestN (Int.toNat 0) l.evictList).1.length : Nat) : Int) ≤ s
    rw [Int.toNat_zero, removeOldestN_length]
    omega
  · simp only [if_neg hc] at hs ⊢
    show (((BasicLRU.removeOldestN ((l.evictList.length : Int) - s).toNat
        l.evictList).1.length : Nat) : Int) ≤ s
    rw [removeOldestN_length]
    omega


theorem exp_removeOldestN_len {K V : Type} [DecidableEq K] [DecidableEq V]
    (n : Nat) (l : ExpirableLRU.LRU K V) :
    (ExpirableLRU.LRU.removeOldestN n l).1.evictList.length =
      l.evictList.length - n ∧
    (ExpirableLRU.LRU.removeOldestN n l).1.size = l.size := by
  induction n generalizing l with
  | zero =>
    rw [ExpirableLRU.LRU.removeOldestN]
    refine ⟨?_, rfl⟩
    show l.evictList.length = l.evictList.length - 0
    omega
  | succ n ih =>
    rw [ExpirableLRU.LRU.removeOldestN]
    cases hl : l.evictList.getLast? with
    | none =>
      have hnil : l.evictList = [] := List.getLast?_eq_none_iff.mp hl
      refine ⟨?_, rfl⟩
      show l.evictList.length = l.evictList.length - (n + 1)
      rw [hnil]
      simp
    | some e =>
      have h1 := ih
        { l with
           evictList := l.evictList.dropLast
           buckets := ExpirableLRU.removeKeyFromBucket l.buckets e.bucket e.key }
      refine ⟨?_, h1.2⟩
      have h2 := h1.1
      simp only [List.length_dropLast] at h2
      show (ExpirableLRU.LRU.removeOldestN n
        { l with
           evictList := l.evictList.dropLast
           buckets :=
             ExpirableLRU.removeKeyFromBucket l.buckets e.bucket e.key }).1.evictList.length =
        l.evictList.length - (n + 1)
      omega

theorem exp_removeKeys_len {K V : Type} [DecidableEq K] [DecidableEq V]
    (ks : List K) (l : ExpirableLRU.LRU K V) :
    (ExpirableLRU.LRU.removeKeys ks l).1.evictList.length ≤ l.evictList.length ∧
    (ExpirableLRU.LRU.removeKeys ks l).1.size = l.size := by
  induction ks generalizing l with
  | nil =>
    rw [ExpirableLRU.LRU.removeKeys]
    exact ⟨Nat.le_refl _, rfl⟩
  | cons k ks ih =>
    rw [ExpirableLRU.LRU.removeKeys]
    cases hf : l.evictList.find? (fun e => e.key == k) with
    | none =>
      exact ih l
    | some e =>
      have h1 := ih
        { l with
           evictList := l.evictList.eraseP (fun x => x.key == k)
           buckets := ExpirableLRU.removeKeyFromBucket l.buckets e.bucket e.key }
      have hle := List.length_eraseP_le l.evictList (p := fun x => x.key == k)
      refine ⟨?_, h1.2⟩
      show (ExpirableLRU.LRU.removeKeys ks
        { l with
           evictList := l.evictList.eraseP (fun x => x.key == k)
           buckets :=
             ExpirableLRU.removeKeyFromBucket l.buckets e.bucket e.key }).1.evictList.length ≤
        l.evictList.length
      have h2 := h1.1
      dsimp only at h2
      omega


theorem inv_exp_add {K V : Type} [DecidableEq K] [DecidableEq V]
    (l : ExpirableLRU.LRU K V) (now : Int) (k : K) (v : V)
    (h : 0 < l.size → (l.Len : Int) ≤ l.size) :
    0 < (l.Add now k v).2.1.size →
      ((l.Add now k v).2.1.Len : Int) ≤ (l.Add now k v).2.1.size := by
  rw [ExpirableLRU.LRU.Add]
  cases hf : l.evictList.find? (fun e => e.key == k) with
  | some entry =>
    simp only [hf]
    intro hs
    have hs2 : 0 < l.size := hs
    have hlen := length_eraseP_of_find? hf
    have hinv := h hs2
    rw [ExpirableLRU.LRU.Len] at hinv
    simp only [ExpirableLRU.LRU.Len, List.length_cons]
    omega
  | none =>
    simp only [hf]
    split
    next hcond =>
      split
      next old hlast =>
        intro hs
        have hinv := h hcond.1
        have hlt := hcond.2
        rw [ExpirableLRU.LRU.Len] at hinv
        simp only [List.length_cons] at hlt
        simp only [ExpirableLRU.LRU.Len, List.length_dropLast, List.length_cons]
        omega
      next hlast =>
        rw [List.getLast?_eq_none_iff] at hlast
        exact absurd hlast (by simp)
    next hcond =>
      intro hs
      have hs2 : 0 < l.size := hs
      have hge : ¬ _ := fun hlt => hcond ⟨hs2, hlt⟩
      simp only [List.length_cons] at hge
      simp only [ExpirableLRU.LRU.Len, List.length_cons]
      omega

theorem inv_exp_get {K V : Type} [DecidableEq K] [DecidableEq V]
    (l : ExpirableLRU.LRU K V) (now : Int) (k : K)
    (h : 0 < l.size → (l.Len : Int) ≤ l.size) :
    0 < (l.Get now k).2.size → ((l.Get now k).2.Len : Int) ≤ (l.Get now k).2.size := by
  rw [ExpirableLRU.LRU.Get]
  cases hf : l.evictList.find? (fun e => e.key == k) with
  | some entry =>
    simp only [hf]
    by_cases hexp : entry.expiresAt < now
    · simp only [if_pos hexp]
      exact h
    · simp only [if_neg hexp]
      intro hs
      have hs2 : 0 < l.size := hs
      have hlen := length_eraseP_of_find? hf
      have hinv := h hs2
      rw [ExpirableLRU.LRU.Len] at hinv
      simp only [ExpirableLRU.LRU.Len, List.length_cons]
      omega
  | none =>
    simp only [hf]
    exact h

theorem inv_exp_remove {K V : Type} [DecidableEq K] [DecidableEq V]
    (l : ExpirableLRU.LRU K V) (k : K)
    (h : 0 < l.size → (l.Len : Int) ≤ l.size) :
    0 < (l.Remove k).2.1.size → ((l.Remove k).2.1.Len : Int) ≤ (l.Remove k).2.1.size := by
  rw [ExpirableLRU.LRU.Remove]
  cases hf : l.evictList.find? (fun e => e.key == k) with
  | some e =>
    simp only [hf]
    intro hs
    have hs2 : 0 < l.size := hs
    have hle := List.length_eraseP_le l.evictList (p := fun x => x.key == k)
    have hinv := h hs2
    rw [ExpirableLRU.LRU.Len] at hinv
    simp only [ExpirableLRU.LRU.Len]
    omega
  | none =>
    simp only [hf]
    exact h

theorem inv_exp_removeOldest {K V : Type} [DecidableEq K] [DecidableEq V]
    (l : ExpirableLRU.LRU K V)
    (h : 0 < l.size → (l.Len : Int) ≤ l.size) :
    0 < l.RemoveOldest.2.1.size →
      (l.RemoveOldest.2.1.Len : Int) ≤ l.RemoveOldest.2.1.size := by
  rw [ExpirableLRU.LRU.RemoveOldest]
  cases hf : l.evictList.getLast? with
  | some e =>
    simp only [hf]
    intro hs
    have hs2 : 0 < l.size := hs
    have hinv := h hs2
    rw [ExpirableLRU.LRU.Len] at hinv
    simp only [ExpirableLRU.LRU.Len, List.length_dropLast]
    omega
  | none =>
    simp only [hf]
    exact h

theorem inv_exp_purge {K V : Type} [DecidableEq K] [DecidableEq V]
    (l : ExpirableLRU.LRU K V) :
    0 < l.Purge.1.size → (l.Purge.1.Len : Int) ≤ l.Purge.1.size := by
  intro hs
  have hs2 : 0 < l.size := hs
  show (((0 : Nat)) : Int) ≤ l.size
  omega

theorem inv_exp_resize {K V : Type} [DecidableEq K] [DecidableEq V]
    (l : ExpirableLRU.LRU K V) (s : Int) :
    0 < (l.Resize s).2.1.size → ((l.Resize s).2.1.Len : Int) ≤ (l.Resize s).2.1.size := by
  rw [ExpirableLRU.LRU.Resize]
  by_cases hz : s ≤ 0
  · simp only [if_pos hz]
    intro hs
    have hs2 : (0 : Int) < 0 := hs
    omega
  · simp only [if_neg hz]
    by_cases hc : (l.evictList.length : Int) - s < 0
    · simp only [if_pos hc]
      intro hs
      have hlen := (exp_removeOldestN_len (Int.toNat 0) l).1
      simp only [ExpirableLRU.LRU.Len]
      omega
    · simp only [if_neg hc]
      intro hs
      have hlen := (exp_removeOldestN_len ((l.evictList.length : Int) - s).toNat l).1
      simp only [ExpirableLRU.LRU.Len]
      omega

theorem inv_exp_deleteExpired {K V : Type} [DecidableEq K] [DecidableEq V]
    (l : ExpirableLRU.LRU K V)
    (h : 0 < l.size → (l.Len : Int) ≤ l.size) :
    0 < l.deleteExpired.1.size →
      (l.deleteExpired.1.Len : Int) ≤ l.deleteExpired.1.size := by
  intro hs
  have hkeys := exp_removeKeys_len
    ((l.buckets.getD l.nextBucket { entries := [], newestEntry := 0 }).entries) l
  have hsz : l.deleteExpired.1.size =
      (ExpirableLRU.LRU.removeKeys
        ((l.buckets.getD l.nextBucket { entries := [], newestEntry := 0 }).entries)
        l).1.size := rfl
  have hlen : l.deleteExpired.1.Len =
      (ExpirableLRU.LRU.removeKeys
        ((l.buckets.getD l.nextBucket { entries := [], newestEntry := 0 }).entries)
        l).1.evictList.length := rfl
  have hs2 : 0 < l.size := by
    rw [hsz, hkeys.2] at hs
    exact hs
  have hinv := h hs2
  rw [ExpirableLRU.LRU.Len] at hinv
  rw [hsz, hlen, hkeys.2]
  have h1 := hkeys.1
  omega

/-- Claim C8: in both variants, every state reachable from construction
through the public operations (and, for the expirable variant, the
background sweep) satisfies the capacity invariant: when the capacity is
positive, the number of live entries never exceeds it — in particular the
bound is re-established at the end of every insertion. -/
theorem reachable_len_le_capacity (K V : Type) [DecidableEq K] [DecidableEq V] :
    (∀ l : BasicLRU.LRU K V,
      BasicLRU.Reachable l → 0 < l.size → (l.Len : Int) ≤ l.size) ∧
    (∀ l : ExpirableLRU.LRU K V,
      ExpirableLRU.Reachable l → 0 < l.size → (l.Len : Int) ≤ l.size) := by
  constructor
  · intro l hreach
    induction hreach with
    | new s l0 hnew =>
      intro hs
      have hnil := (basic_new_ok_evictList hnew).1
      rw [BasicLRU.LRU.Len, hnil]
      show ((([] : List (K × V)).length : Nat) : Int) ≤ l0.size
      simp
      omega
    | add l k v _ ih => exact inv_basic_add l k v ih
    | get l k _ ih => exact inv_basic_get l k ih
    | remove l k _ ih => exact inv_basic_remove l k ih
    | removeOldest l _ ih => exact inv_basic_removeOldest l ih
    | purge l _ _ => exact inv_basic_purge l
    | resize l s _ _ => exact inv_basic_resize l s
  · intro l hreach
    induction hreach with
    | new s ttl =>
      intro hs
      show (((0 : Nat)) : Int) ≤ _
      simp
      omega
    | add l now k v _ ih => exact inv_exp_add l now k v ih
    | get l now k _ ih => exact inv_exp_get l now k ih
    | remove l k _ ih => exact inv_exp_remove l k ih
    | removeOldest l _ ih => exact inv_exp_removeOldest l ih
    | purge l _ _ => exact inv_exp_purge l
    | resize l s _ _ => exact inv_exp_resize l s
    | deleteExpired l _ ih => exact inv_exp_deleteExpired l ih

/-- Claim C8 witness: the invariant instantiated at a freshly constructed
basic cache of capacity 1 and a fresh expirable cache of capacity 5. -/
theorem reachable_len_le_capacity_witness :
    ((BasicLRU.LRU.Len (K := Nat) (V := Nat) { size := 1, evictList := [] } : Int) ≤
      ({ size := 1, evictList := [] } : BasicLRU.LRU Nat Nat).size) ∧
    ((ExpirableLRU.LRU.Len (K := Nat) (V := Nat) (ExpirableLRU.NewLRU 5 30) : Int) ≤
      (ExpirableLRU.NewLRU (K := Nat) (V := Nat) 5 30).size) :=
  ⟨(reachable_len_le_capacity Nat Nat).1 { size := 1, evictList := [] }
      (BasicLRU.Reachable.new 1 { size := 1, evictList := [] } rfl) (by decide),
   (reachable_len_le_capacity Nat Nat).2 (ExpirableLRU.NewLRU 5 30)
      (ExpirableLRU.Reachable.new 5 30) (by decide)⟩

theorem basic_new_ok_eq {K V : Type} [DecidableEq K] {s : Int}
    {l : BasicLRU.LRU K V} (h : BasicLRU.NewLRU s = Except.ok l) :
    l = { size := s, evictList := [] } := by
  rw [BasicLRU.NewLRU] at h
  split at h
  · exact absurd h (by simp)
  · injection h with h
    exact h.symm

theorem basic_add_fresh {K V : Type} [DecidableEq K]
    (l : BasicLRU.LRU K V) (k : K) (v : V)
    (hfresh : l.evictList.find? (fun p => p.1 == k) = none) :
    l.Add k v =
      if l.size < ((l.evictList.length + 1 : Nat) : Int) then
        (true, { l with evictList := ((k, v) :: l.evictList).dropLast },
         ((k, v) :: l.evictList).getLast?.toList)
      else
        (false, { l with evictList := (k, v) :: l.evictList }, []) := by
  rw [BasicLRU.LRU.Add]
  simp only [hfresh, List.length_cons]

theorem addAll_window {K V : Type} [DecidableEq K] (C : Int) (hC : 0 < C) :
    ∀ (ks done : List (K × V)),
      ((done ++ ks).map Prod.fst).Nodup →
      (BasicLRU.LRU.addAll
          { size := C, evictList := done.reverse.take C.toNat } ks).1 =
        { size := C, evictList := (done ++ ks).reverse.take C.toNat } ∧
      (BasicLRU.LRU.addAll
          { size := C, evictList := done.reverse.take C.toNat } ks).2.length =
        ks.length ∧
      (∀ j, j < ks.length →
        (BasicLRU.LRU.addAll
            { size := C, evictList := done.reverse.take C.toNat } ks).2[j]? =
          some (decide (C.toNat ≤ done.length + j),
            if C.toNat ≤ done.length + j then
              ((done ++ ks)[done.length + j - C.toNat]?).toList
            else [])) := by
  intro ks
  induction ks with
  | nil =>
    intro done hnd
    rw [BasicLRU.LRU.addAll]
    refine ⟨by rw [List.append_nil], rfl, ?_⟩
    intro j hj
    exact absurd hj (by simp)
  | cons kv rest ih =>
    obtain ⟨k, v⟩ := kv
    intro done hnd
    have hCpos : 0 < C.toNat := by omega
    obtain ⟨m, hm⟩ : ∃ m, C.toNat = m + 1 := ⟨C.toNat - 1, by omega⟩
    -- the new key is fresh for the current window
    have hkfresh : k ∉ done.map Prod.fst := by
      intro hmem
      rw [List.map_append, List.nodup_append] at hnd
      exact hnd.2.2 hmem (by simp)
    have hfind :
        (done.reverse.take C.toNat).find? (fun p => p.1 == k) = none := by
      rw [List.find?_eq_none]
      intro x hx hbeq
      apply hkfresh
      have hxd : x ∈ done := List.mem_reverse.mp (List.mem_of_mem_take hx)
      have hxk : x.1 = k := by
        have := of_decide_eq_true hbeq
        exact this
      exact hxk ▸ List.mem_map_of_mem Prod.fst hxd
    -- the Nodup hypothesis re-associated for the induction hypothesis
    have hassoc : (done ++ [(k, v)]) ++ rest = done ++ (k, v) :: rest := by
      rw [List.append_assoc, List.singleton_append]
    have hnd' : (((done ++ [(k, v)]) ++ rest).map Prod.fst).Nodup := by
      rw [hassoc]
      exact hnd
    have ihspec := ih (done ++ [(k, v)]) hnd'
    have hrevcons : (done ++ [(k, v)]).reverse = (k, v) :: done.reverse := by
      rw [List.reverse_append]
      rfl
    have hlendone' : (done ++ [(k, v)]).length = done.length + 1 := by simp
    rw [BasicLRU.LRU.addAll]
    by_cases hcase : done.length < C.toNat
    · -- the window is not yet full: no eviction
      have htake : done.reverse.take C.toNat = done.reverse :=
        List.take_of_length_le (by simp; omega)
      have htake' : (done ++ [(k, v)]).reverse.take C.toNat =
          (k, v) :: done.reverse := by
        rw [hrevcons, hm, List.take_succ_cons]
        rw [List.take_of_length_le (by simp; omega)]
      have hadd := basic_add_fresh
        { size := C, evictList := done.reverse.take C.toNat } k v hfind
      rw [if_neg (by simp [htake]; omega)] at hadd
      rw [hadd]
      have hstate :
          ({ size := C, evictList := done.reverse.take C.toNat } :
            BasicLRU.LRU K V).evictList = done.reverse.take C.toNat := rfl
      -- the post-Add state is the window of done ++ [(k, v)]
      have hpost :
          ({ size := C, evictList := (k, v) :: done.reverse.take C.toNat } :
            BasicLRU.LRU K V) =
          { size := C, evictList := (done ++ [(k, v)]).reverse.take C.toNat } := by
        rw [htake, htake']
      refine ⟨?_, ?_, ?_⟩
      · show (BasicLRU.LRU.addAll _ rest).1 = _
        rw [hpost, ihspec.1, hassoc]
      · show ((false, []) :: (BasicLRU.LRU.addAll _ rest).2).length = rest.length + 1
        rw [List.length_cons, hpost, ihspec.2.1]
      · intro j hj
        match j with
        | 0 =>
          show ((false, ([] : List (K × V))) :: _)[0]? = _
          rw [List.getElem?_cons_zero]
          have hflag : decide (C.toNat ≤ done.length + 0) = false :=
            decide_eq_false (by omega)
          rw [hflag, if_neg (by omega)]
        | j' + 1 =>
          show ((false, ([] : List (K × V))) :: (BasicLRU.LRU.addAll _ rest).2)[j' + 1]? = _
          rw [List.getElem?_cons_succ, hpost]
          have harith : done.length + (j' + 1) = (done ++ [(k, v)]).length + j' := by
            simp
            omega
          rw [harith, ← hassoc]
          exact ihspec.2.2 j' (by simp only [List.length_cons] at hj; omega)
    · -- the window is full: the back node is evicted
      have hge : C.toNat ≤ done.length := by omega
      have hlenfull : (done.reverse.take C.toNat).length = C.toNat := by
        simp
        omega
      have hadd := basic_add_fresh
        { size := C, evictList := done.reverse.take C.toNat } k v hfind
      rw [if_pos (by simp [hlenfull]; omega)] at hadd
      rw [hadd]
      -- the surviving window
      have hdrop :
          ((k, v) :: done.reverse.take C.toNat).dropLast =
          (done ++ [(k, v)]).reverse.take C.toNat := by
        rw [List.dropLast_eq_take]
        rw [List.length_cons, hlenfull]
        show ((k, v) :: done.reverse.take C.toNat).take (C.toNat + 1 - 1) = _
        rw [Nat.add_sub_cancel, hm, List.take_succ_cons, List.take_take]
        rw [hrevcons, List.take_succ_cons]
        congr 1
        congr 1
        omega
      -- the evicted entry is the oldest element of the current window
      have hlast :
          ((k, v) :: done.reverse.take C.toNat).getLast? =
          done[done.length - C.toNat]? := by
        rw [List.getLast?_eq_getElem?]
        rw [List.length_cons, hlenfull, Nat.add_sub_cancel, hm]
        rw [List.getElem?_cons_succ]
        rw [List.getElem?_take_of_lt (by omega)]
        rw [List.getElem?_reverse (by omega)]
        congr 1
        omega
      have hpost :
          ({ size := C, evictList := ((k, v) :: done.reverse.take C.toNat).dropLast } :
            BasicLRU.LRU K V) =
          { size := C, evictList := (done ++ [(k, v)]).reverse.take C.toNat } := by
        rw [hdrop]
      refine ⟨?_, ?_, ?_⟩
      · show (BasicLRU.LRU.addAll _ rest).1 = _
        rw [hpost, ihspec.1, hassoc]
      · show ((true, _) :: (BasicLRU.LRU.addAll _ rest).2).length = rest.length + 1
        rw [List.length_cons, hpost, ihspec.2.1]
      · intro j hj
        match j with
        | 0 =>
          show ((true, ((k, v) :: done.reverse.take C.toNat).getLast?.toList) :: _)[0]? = _
          rw [List.getElem?_cons_zero, hlast]
          have hflag : decide (C.toNat ≤ done.length + 0) = true :=
            decide_eq_true (by omega)
          rw [hflag, if_pos (by omega)]
          have hidx : (done ++ (k, v) :: rest)[done.length + 0 - C.toNat]? =
              done[done.length - C.toNat]? := by
            rw [Nat.add_zero]
            exact List.getElem?_append_left (by omega)
          rw [hidx]
        | j' + 1 =>
          show ((true, _) :: (BasicLRU.LRU.addAll _ rest).2)[j' + 1]? = _
          rw [List.getElem?_cons_succ, hpost]
          have harith : done.length + (j' + 1) = (done ++ [(k, v)]).length + j' := by
            simp
            omega
          rw [harith, ← hassoc]
          exact ihspec.2.2 j' (by simp only [List.length_cons] at hj; omega)

/-- Claim C1: starting from a fresh basic LRU of capacity `C > 0`, folding a
sequence of more than `C` `Add` calls with pairwise distinct keys and no
intervening reads leaves exactly the `C` most recently added entries (most
recent first on the recency list, so `Len() = C`), and the `j`-th `Add`
(0-based) returns `true` exactly when `j ≥ C`, in which case it evicts
precisely the entry added `C` steps earlier — the oldest resident — so
evictions happen oldest first. -/
theorem add_distinct_keys_window {K V : Type} [DecidableEq K]
    (C : Int) (ks : List (K × V)) (l0 : BasicLRU.LRU K V)
    (hC : 0 < C)
    (hnew : BasicLRU.NewLRU C = Except.ok l0)
    (hnodup : (ks.map Prod.fst).Nodup)
    (hlong : C < (ks.length : Int)) :
    (l0.addAll ks).1.evictList = ks.reverse.take C.toNat ∧
    (l0.addAll ks).1.Len = C.toNat ∧
    (l0.addAll ks).2.length = ks.length ∧
    (∀ j, j < ks.length →
      (l0.addAll ks).2[j]? =
        some (decide (C.toNat ≤ j),
          if C.toNat ≤ j then (ks[j - C.toNat]?).toList else [])) := by
  have h0 := basic_new_ok_eq hnew
  subst h0
  have hgen := addAll_window C hC ks [] (by simpa using hnodup)
  simp only [List.reverse_nil, List.take_nil, List.nil_append, List.length_nil,
    Nat.zero_add] at hgen
  refine ⟨?_, ?_, hgen.2.1, ?_⟩
  · rw [hgen.1]
  · rw [BasicLRU.LRU.Len, hgen.1]
    show (ks.reverse.take C.toNat).length = C.toNat
    simp only [List.length_take, List.length_reverse]
    omega
  · intro j hj
    exact hgen.2.2 j hj

/-- Claim C1 witness: capacity 2, three distinct-key adds; the cache keeps
the last two entries and the third add evicts the first, returning true. -/
theorem add_distinct_keys_window_witness :
    ((BasicLRU.LRU.addAll { size := 2, evictList := [] }
        [(1, 10), (2, 20), (3, 30)]).1.evictList =
      ([(1, 10), (2, 20), (3, 30)] : List (Nat × Nat)).reverse.take (Int.toNat 2)) ∧
    ((BasicLRU.LRU.addAll { size := 2, evictList := [] }
        [(1, 10), (2, 20), (3, 30)]).1.Len = Int.toNat 2) ∧
    ((BasicLRU.LRU.addAll { size := 2, evictList := [] }
        [(1, 10), (2, 20), (3, 30)]).2.length =
      ([(1, 10), (2, 20), (3, 30)] : List (Nat × Nat)).length) ∧
    (∀ j, j < ([(1, 10), (2, 20), (3, 30)] : List (Nat × Nat)).length →
      (BasicLRU.LRU.addAll { size := 2, evictList := [] }
          [(1, 10), (2, 20), (3, 30)]).2[j]? =
        some (decide (Int.toNat 2 ≤ j),
          if Int.toNat 2 ≤ j then
            (([(1, 10), (2, 20), (3, 30)] : List (Nat × Nat))[j - Int.toNat 2]?).toList
          else [])) :=
  add_distinct_keys_window 2 [(1, 10), (2, 20), (3, 30)]
    { size := 2, evictList := [] } (by decide) rfl (by decide) (by decide)
